import Mathlib

/-
  Verification development for the item selection & ranking pipeline of
  `bot.py` (RSS digest bot).  The Python functions are shallowly embedded:

  * feed entries (`dict` with keys `title`, `link`, `summary`,
    `published_parsed`) become the structure `Entry`; the broken-down
    `published_parsed` time together with its `time.mktime` conversion is
    modelled as an optional epoch timestamp in seconds (`none` covers both an
    absent and an unparseable published time, which the code maps to the same
    sentinel);
  * floating point scores become exact rationals (`ℚ`);
  * the wall clock `datetime.now(tz=IST)` read inside `score_item` becomes an
    explicit parameter `now` (epoch seconds), so a score is evaluated at a
    fixed `now`;
  * the truncated cryptographic hash
    `hashlib.sha256(s.encode()).hexdigest()[:16]` becomes an abstract
    function `H : String → String` supplied as a parameter; the
    collision-freeness the spec assumes is the hypothesis
    `Function.Injective H`;
  * `dict` used in `pick_top` (insertion ordered, as in CPython) becomes an
    association list in which updating an existing key keeps its position and
    a new key is appended at the end;
  * `sorted(…, key=score_item, reverse=True)` (a stable descending sort)
    becomes a stable insertion sort `sortDesc`.
-/

structure Entry where
  title : String
  link : String
  summary : String
  /-- models `entry["published_parsed"]` converted by `time.mktime` to epoch
  seconds; `none` models an absent or unparseable published time. -/
  published : Option Int
  deriving DecidableEq, Repr

namespace Bot

/-! ### String helpers: `canonical_url`, `normalize_text` -/

/-- Characters matched by Python's `\s` (ASCII range). -/
def isWs (c : Char) : Bool :=
  c = ' ' || c = '\t' || c = '\n' || c = '\r' || c = '\x0b' || c = '\x0c'

/-- The part of the character list before the first `'?'`:
`u.split("?", 1)[0]`. -/
def splitBeforeQ : List Char → List Char
  | [] => []
  | c :: cs => if c = '?' then [] else c :: splitBeforeQ cs

/-- `canonical_url`: empty input is returned as-is, otherwise everything from
the first `?` onward is stripped. -/
def canonical_url (u : String) : String :=
  if u = "" then u else String.mk (splitBeforeQ u.data)

/-- `re.sub(r"\s+", " ", s)`: each maximal whitespace run becomes a single
space.  The flag records whether the previous character was whitespace. -/
def collapseWs : Bool → List Char → List Char
  | _, [] => []
  | prevWs, c :: cs =>
    if isWs c then
      if prevWs then collapseWs true cs else ' ' :: collapseWs true cs
    else c :: collapseWs false cs

/-- `str.strip()`: drop leading and trailing whitespace. -/
def stripChars (l : List Char) : List Char :=
  ((l.dropWhile isWs).reverse.dropWhile isWs).reverse

/-- `normalize_text`: collapse whitespace runs to one space, then strip. -/
def normalize_text (s : String) : String :=
  String.mk (stripChars (collapseWs false s.data))

/-! ### Fingerprinting and scoring -/

/-- `hash_item(title, link)`: the (abstract) truncated sha256 hex digest of
the separator-free concatenation `title + canonical_url(link)`. -/
def hash_item (H : String → String) (title link : String) : String :=
  H (title ++ canonical_url link)

/-- The fingerprint `pick_top` and `pad_to_three` compute for an entry:
`hash_item(normalize_text(title), canonical_url(link))`. -/
def entryFp (H : String → String) (e : Entry) : String :=
  hash_item H (normalize_text e.title) (canonical_url e.link)

/-- `score_item(entry)` with the wall clock passed explicitly (epoch
seconds). -/
def score_item (now : Int) (e : Entry) : ℚ :=
  let recency_hours : ℚ :=
    match e.published with
    | some pub => max 1 (((now : ℚ) - (pub : ℚ)) / 3600)
    | none => 9999
  let title_ok : Bool := 0 < e.title.length
  let summary_len : Nat := e.summary.length
  10 / recency_hours + (if title_ok then 1 else 0) + min (3 / 2) ((summary_len : ℚ) / 400)

/-- The validity test of `pick_top`: `if not title or not link: continue`. -/
def validEntry (e : Entry) : Bool :=
  normalize_text e.title != "" && canonical_url e.link != ""

/-! ### `pick_top`: the `best` dict, the stable descending sort, truncation -/

/-- `best[h] = v` on an insertion-ordered dict: an existing key keeps its
position, a new key is appended at the end (CPython dict semantics). -/
def setKey : List (String × ℚ × Entry) → String → ℚ × Entry → List (String × ℚ × Entry)
  | [], h, v => [(h, v)]
  | kv :: rest, h, v => if kv.1 = h then (h, v) :: rest else kv :: setKey rest h v

/-- `best[h]` / `h in best` on the insertion-ordered dict. -/
def lookupVal : List (String × ℚ × Entry) → String → Option (ℚ × Entry)
  | [], _ => none
  | kv :: rest, h => if kv.1 = h then some kv.2 else lookupVal rest h

/-- The loop of `pick_top`: skip invalid entries, then
`if h not in best or s > best[h][0]: best[h] = (s, e)`. -/
def pickLoop (H : String → String) (now : Int) :
    List (String × ℚ × Entry) → List Entry → List (String × ℚ × Entry)
  | best, [] => best
  | best, e :: rest =>
    if validEntry e then
      match lookupVal best (entryFp H e) with
      | none => pickLoop H now (setKey best (entryFp H e) (score_item now e, e)) rest
      | some sv =>
        if sv.1 < score_item now e then
          pickLoop H now (setKey best (entryFp H e) (score_item now e, e)) rest
        else pickLoop H now best rest
    else pickLoop H now best rest

/-- `[v[1] for v in best.values()]` after the loop, in dict order. -/
def repEntries (H : String → String) (now : Int) (items : List Entry) : List Entry :=
  (pickLoop H now [] items).map (fun kv => kv.2.2)

/-- One step of a stable descending insertion sort: `e` is placed after every
element whose score is at least its own. -/
def insertDesc (now : Int) (e : Entry) : List Entry → List Entry
  | [] => [e]
  | x :: xs =>
    if score_item now e ≤ score_item now x then x :: insertDesc now e xs
    else e :: x :: xs

/-- `sorted(l, key=score_item, reverse=True)`: Python's sort is stable, and
with `reverse=True` elements of equal score still keep their original order;
this stable descending insertion sort produces the same list. -/
def sortDesc (now : Int) (l : List Entry) : List Entry :=
  l.foldl (fun acc e => insertDesc now e acc) []

/-- `pick_top(items, want)`. -/
def pick_top (H : String → String) (now : Int) (items : List Entry) (want : Nat) :
    List Entry :=
  (sortDesc now (repEntries H now items)).take want

/-- "number of distinct fingerprints among valid entries": the spec's
`distinct_valid_count(pool)`. -/
def distinct_valid_count (H : String → String) (items : List Entry) : Nat :=
  (((items.filter validEntry).map (entryFp H)).dedup).length

/-! ### `pad_to_three` -/

/-- The loop of `pad_to_three`, with the `seen` set of fingerprints made
explicit. -/
def padAux (H : String → String) : List String → List Entry → List Entry → List Entry
  | _, items, [] => items
  | seen, items, e :: rest =>
    if 3 ≤ items.length then items
    else
      if seen.contains (entryFp H e) then padAux H seen items rest
      else padAux H (entryFp H e :: seen) (items ++ [e]) rest

/-- `pad_to_three(items, pool)`: `seen` starts as the fingerprints of
`items`. -/
def pad_to_three (H : String → String) (items pool : List Entry) : List Entry :=
  padAux H (items.map (entryFp H)) items pool

/-! ### Routing and the two final selections (`build_and_send`) -/

/-- The fixed gaming keyword set of `build_and_send`. -/
def gamingKeywords : List String :=
  ["mobile", "android", "ios", "app store", "google play", "unity", "roblox", "snapdragon"]

/-- Does `needle` start `hay`? -/
def startsWithChars : List Char → List Char → Bool
  | [], _ => true
  | _ :: _, [] => false
  | a :: as, b :: bs => a = b && startsWithChars as bs

/-- Python's substring test `needle in hay` on character lists. -/
def containsSub (needle : List Char) : List Char → Bool
  | [] => startsWithChars needle []
  | c :: cs => startsWithChars needle (c :: cs) || containsSub needle cs

/-- `str.lower()` restricted to the ASCII range (the keywords and all inputs
considered here are ASCII). -/
def lowerChar (c : Char) : Char :=
  if 'A' ≤ c ∧ c ≤ 'Z' then Char.ofNat (c.toNat + 32) else c

def lowerStr (s : String) : String := String.mk (s.data.map lowerChar)

/-- `any(k in text for k in [...])` with
`text = (title + " " + summary).lower()`. -/
def isGaming (e : Entry) : Bool :=
  gamingKeywords.any fun k =>
    containsSub k.data (lowerStr (e.title ++ " " ++ e.summary)).data

/-- `siphoned`: the gaming-relevant entries of the general pool. -/
def siphoned (general_all : List Entry) : List Entry :=
  general_all.filter isGaming

/-- `gaming_pool = mobile_all + siphoned`. -/
def gaming_pool (mobile_all general_all : List Entry) : List Entry :=
  mobile_all ++ siphoned general_all

/-- `general_pool = [e for e in general_all if e not in siphoned]`. -/
def general_pool (general_all : List Entry) : List Entry :=
  general_all.filter fun e => !(decide (e ∈ siphoned general_all))

/-- The final gaming selection: `pick_top(gaming_pool, 3)`, padded from
`general_pool` when short. -/
def top_gaming (H : String → String) (now : Int) (mobile_all general_all : List Entry) :
    List Entry :=
  let t := pick_top H now (gaming_pool mobile_all general_all) 3
  if t.length < 3 then pad_to_three H t (general_pool general_all) else t

/-- The final general selection: `pick_top(general_pool, 3)`, padded from
`remaining = [e for e in general_pool if e not in top_general and e not in
top_gaming]` when short (`top_gaming` is the already padded one). -/
def top_general (H : String → String) (now : Int) (mobile_all general_all : List Entry) :
    List Entry :=
  let tg := top_gaming H now mobile_all general_all
  let t := pick_top H now (general_pool general_all) 3
  if t.length < 3 then
    pad_to_three H t
      ((general_pool general_all).filter fun e =>
        !(decide (e ∈ t)) && !(decide (e ∈ tg)))
  else t

/-! ### Spec-side definitions (for comparison with the code)

These three follow the specification's wording of the scoring formula:
`recency_hours = max(1, hours elapsed between entry.published and now)` with
the absent/unparseable sentinel, the binary title bonus, and the capped
summary term. -/

def recency_hours_spec (now : Int) (e : Entry) : ℚ :=
  match e.published with
  | some pub => max 1 (((now : ℚ) - (pub : ℚ)) / 3600)
  | none => 9999

def title_bonus_spec (e : Entry) : ℚ := if e.title ≠ "" then 1 else 0

def summary_term_spec (e : Entry) : ℚ := min (3 / 2) ((e.summary.length : ℚ) / 400)

/-! ### Invariant predicates for the `pick_top` loop -/

/-- Every valid entry of `l` with fingerprint `h` scores strictly below
`s`. -/
def groupLt (H : String → String) (now : Int) (l : List Entry) (h : String) (s : ℚ) : Prop :=
  ∀ x ∈ l, validEntry x = true → entryFp H x = h → score_item now x < s

/-- Every valid entry of `l` with fingerprint `h` scores at most `s`. -/
def groupLe (H : String → String) (now : Int) (l : List Entry) (h : String) (s : ℚ) : Prop :=
  ∀ x ∈ l, validEntry x = true → entryFp H x = h → score_item now x ≤ s

/-- A `best` dict record `(h, s, e)` is a correct representative for the
processed prefix: `e` occurs in it, is valid, has fingerprint `h` and score
`s`, every strictly earlier valid group member scores strictly below `s`
(the loop keeps the first maximum), and every later one scores at most
`s`. -/
def RepOk (H : String → String) (now : Int) (processed : List Entry)
    (kv : String × ℚ × Entry) : Prop :=
  ∃ l1 l2, processed = l1 ++ kv.2.2 :: l2 ∧ validEntry kv.2.2 = true ∧
    entryFp H kv.2.2 = kv.1 ∧ kv.2.1 = score_item now kv.2.2 ∧
    groupLt H now l1 kv.1 kv.2.1 ∧ groupLe H now l2 kv.1 kv.2.1

/-- Loop invariant of `pick_top`: every record of `best` is a correct
representative, keys are distinct, and every valid processed entry's
fingerprint is a key. -/
def Inv (H : String → String) (now : Int) (processed : List Entry)
    (best : List (String × ℚ × Entry)) : Prop :=
  (∀ kv ∈ best, RepOk H now processed kv) ∧
    (best.map Prod.fst).Nodup ∧
    ∀ x ∈ processed, validEntry x = true → entryFp H x ∈ best.map Prod.fst

/-! ### Concrete entries used in counterexamples and witnesses -/

/-- C1: distinct titles/links whose separator-free concatenations agree. -/
def cexA : Entry := ⟨"ab", "c", "", none⟩

def cexB : Entry := ⟨"a", "bc", "", none⟩

/-- C2: a duplicated story (same normalized title, same canonical link). -/
def dupLow : Entry := ⟨"dup", "http://d", "", none⟩

def dupHigh : Entry := ⟨"dup", "http://d", "", some (-7200)⟩

def dist1 : Entry := ⟨"d1", "http://1", "", some (-3600)⟩

def dist2 : Entry := ⟨"d2", "http://2", "", some (-3600)⟩

def dist3 : Entry := ⟨"d3", "http://3", "", some (-3600)⟩

def dist4 : Entry := ⟨"d4", "http://4", "", some (-3600)⟩

/-- C2: a pool in which the duplicated story is crowded out of the top 3 by
four distinct fresher entries. -/
def crowdPool : List Entry := [dupLow, dupHigh, dist1, dist2, dist3, dist4]

/-- C4: an entry whose normalized title is empty (invalid). -/
def badEntry : Entry := ⟨"", "http://x", "", none⟩

/-- A valid entry matching no gaming keyword. -/
def helloEntry : Entry := ⟨"hello", "http://a/b", "", none⟩

/-- C5: a valid entry containing the keyword `android`. -/
def androidEntry : Entry := ⟨"android game studio raises", "http://g", "", none⟩

/-- C6: two valid, fingerprint-distinct entries. -/
def padA : Entry := ⟨"w6a", "http://6a", "", none⟩

def padB : Entry := ⟨"w6b", "http://6b", "", none⟩

/-- C9: an entry with a non-empty title and summary. -/
def nineEntry : Entry := ⟨"nine", "http://9", "some summary", none⟩

/-! ## Theorems -/

/-! ### Canonicalization and fingerprints (C1) -/

theorem splitBeforeQ_idem (l : List Char) :
    splitBeforeQ (splitBeforeQ l) = splitBeforeQ l := by
  induction l with
  | nil => rfl
  | cons c cs ih =>
    by_cases h : c = '?'
    · simp [splitBeforeQ, h]
    · simp [splitBeforeQ, h, ih]

theorem canonical_url_idem (u : String) :
    canonical_url (canonical_url u) = canonical_url u := by
  unfold canonical_url
  by_cases h : u = ""
  · simp [h]
  · simp only [if_neg h]
    by_cases h2 : String.mk (splitBeforeQ u.data) = ""
    · simp [h2]
    · simp [h2, splitBeforeQ_idem]

/-- The fingerprint both call sites compute, with the inner re-application of
`canonical_url` inside `hash_item` collapsed by idempotence. -/
theorem entryFp_eq (H : String → String) (e : Entry) :
    entryFp H e = H (normalize_text e.title ++ canonical_url e.link) := by
  unfold entryFp hash_item
  rw [canonical_url_idem]

/-- C1 (amended): assuming the truncated hash is collision-free (injective),
two entries have equal fingerprints iff the separator-free concatenations
`normalize(title) ++ canonicalize(link)` are equal.  Equal title/link pairs
therefore always give equal fingerprints, but distinct pairs whose
concatenations coincide share a fingerprint as well. -/
theorem c1_fingerprint_eq_iff_concat (H : String → String)
    (hH : Function.Injective H) (e1 e2 : Entry) :
    entryFp H e1 = entryFp H e2 ↔
      normalize_text e1.title ++ canonical_url e1.link
        = normalize_text e2.title ++ canonical_url e2.link := by
  rw [entryFp_eq, entryFp_eq]
  exact hH.eq_iff

section
attribute [local semireducible] Rat.add Rat.mul Rat.inv Rat.sub

/-- C1 (counterexample): with the identity as the (injective, hence
collision-free) hash, the entries `("ab", "c")` and `("a", "bc")` have
different normalized titles and different canonical links, yet equal
fingerprints — the separator-free concatenation is ambiguous, so the claimed
"only if" direction fails. -/
theorem c1_counterexample :
    Function.Injective (id : String → String) ∧
      entryFp id cexA = entryFp id cexB ∧
      normalize_text cexA.title ≠ normalize_text cexB.title ∧
      canonical_url cexA.link ≠ canonical_url cexB.link := by
  refine ⟨fun _ _ h => h, ?_, ?_, ?_⟩ <;> decide

/-- C1 (witness): the amended equivalence instantiated at the concrete
injective hash `id` and the two concrete entries. -/
theorem c1_witness :
    entryFp id cexA = entryFp id cexB ↔
      normalize_text cexA.title ++ canonical_url cexA.link
        = normalize_text cexB.title ++ canonical_url cexB.link :=
  c1_fingerprint_eq_iff_concat id (fun _ _ h => h) cexA cexB

end

/-! ### The stable descending sort is a permutation -/

theorem insertDesc_perm (now : Int) (e : Entry) (l : List Entry) :
    (insertDesc now e l).Perm (e :: l) := by
  induction l with
  | nil => exact List.Perm.refl _
  | cons x xs ih =>
    unfold insertDesc
    by_cases h : score_item now e ≤ score_item now x
    · simpa [h] using (ih.cons x).trans (List.Perm.swap e x xs)
    · simp [h]

theorem foldl_insertDesc_perm (now : Int) (l : List Entry) :
    ∀ acc, (l.foldl (fun acc e => insertDesc now e acc) acc).Perm (acc ++ l) := by
  induction l with
  | nil => intro acc; simp
  | cons e rest ih =>
    intro acc
    exact (ih (insertDesc now e acc)).trans
      (((insertDesc_perm now e acc).append_right rest).trans List.perm_middle.symm)

theorem sortDesc_perm (now : Int) (l : List Entry) : (sortDesc now l).Perm l := by
  simpa using foldl_insertDesc_perm now l []

theorem mem_sortDesc (now : Int) (l : List Entry) (a : Entry) :
    a ∈ sortDesc now l ↔ a ∈ l :=
  (sortDesc_perm now l).mem_iff

/-! ### The insertion-ordered dict -/

theorem lookupVal_eq_none {best : List (String × ℚ × Entry)} {h : String} :
    lookupVal best h = none ↔ h ∉ best.map Prod.fst := by
  induction best with
  | nil => simp [lookupVal]
  | cons kv rest ih =>
    simp only [lookupVal, List.map_cons, List.mem_cons]
    by_cases hk : kv.1 = h
    · simp [hk]
    · have hk' : ¬h = kv.1 := fun he => hk he.symm
      simp [if_neg hk, ih, hk']

theorem lookupVal_mem {best : List (String × ℚ × Entry)} {h : String}
    {sv : ℚ × Entry} (hl : lookupVal best h = some sv) : (h, sv) ∈ best := by
  induction best with
  | nil => simp [lookupVal] at hl
  | cons kv rest ih =>
    by_cases hk : kv.1 = h
    · simp only [lookupVal, if_pos hk, Option.some.injEq] at hl
      subst hl; subst hk
      exact List.mem_cons_self _ _
    · simp only [lookupVal, if_neg hk] at hl
      exact List.mem_cons_of_mem _ (ih hl)

theorem lookupVal_of_mem {best : List (String × ℚ × Entry)}
    (hnd : (best.map Prod.fst).Nodup) {h : String} {sv : ℚ × Entry}
    (hm : (h, sv) ∈ best) : lookupVal best h = some sv := by
  induction best with
  | nil => simp at hm
  | cons kv rest ih =>
    simp only [List.map_cons, List.nodup_cons] at hnd
    rcases List.mem_cons.mp hm with he | hm'
    · subst he; simp [lookupVal]
    · have hk : kv.1 ≠ h := by
        intro hkh
        exact hnd.1 (hkh ▸ (List.mem_map.mpr ⟨(h, sv), hm', rfl⟩))
      simp [lookupVal, hk, ih hnd.2 hm']

theorem setKey_of_not_mem {best : List (String × ℚ × Entry)} {h : String}
    {v : ℚ × Entry} (hnm : h ∉ best.map Prod.fst) :
    setKey best h v = best ++ [(h, v)] := by
  induction best with
  | nil => rfl
  | cons kv rest ih =>
    simp only [List.map_cons, List.mem_cons] at hnm
    push_neg at hnm
    have hk : kv.1 ≠ h := fun hh => hnm.1 hh.symm
    simp [setKey, hk, ih hnm.2]

theorem setKey_keys_of_mem {best : List (String × ℚ × Entry)} {h : String}
    {v : ℚ × Entry} (hm : h ∈ best.map Prod.fst) :
    (setKey best h v).map Prod.fst = best.map Prod.fst := by
  induction best with
  | nil => simp at hm
  | cons kv rest ih =>
    by_cases hk : kv.1 = h
    · simp [setKey, hk]
    · simp only [List.map_cons, List.mem_cons] at hm
      rcases hm with he | hm'
      · exact absurd he.symm hk
      · simp [setKey, hk, ih hm']

theorem setKey_self_mem (best : List (String × ℚ × Entry)) (h : String)
    (v : ℚ × Entry) : (h, v) ∈ setKey best h v := by
  induction best with
  | nil => simp [setKey]
  | cons kv rest ih =>
    by_cases hk : kv.1 = h
    · simp [setKey, hk]
    · simp only [setKey, if_neg hk]
      exact List.mem_cons_of_mem _ ih

theorem setKey_mem_cases {best : List (String × ℚ × Entry)}
    (hnd : (best.map Prod.fst).Nodup) {h : String} {v : ℚ × Entry}
    {kv : String × ℚ × Entry} (hm : kv ∈ setKey best h v) :
    kv = (h, v) ∨ (kv ∈ best ∧ kv.1 ≠ h) := by
  induction best with
  | nil =>
    simp only [setKey, List.mem_singleton] at hm
    exact Or.inl hm
  | cons kv0 rest ih =>
    simp only [List.map_cons, List.nodup_cons] at hnd
    by_cases hk : kv0.1 = h
    · simp only [setKey, if_pos hk, List.mem_cons] at hm
      rcases hm with he | hm'
      · exact Or.inl he
      · refine Or.inr ⟨List.mem_cons_of_mem _ hm', ?_⟩
        intro hkh
        apply hnd.1
        rw [hk, ← hkh]
        exact List.mem_map.mpr ⟨kv, hm', rfl⟩
    · simp only [setKey, if_neg hk, List.mem_cons] at hm
      rcases hm with he | hm'
      · exact Or.inr ⟨he ▸ List.mem_cons_self _ _, he ▸ hk⟩
      · rcases ih hnd.2 hm' with h1 | h2
        · exact Or.inl h1
        · exact Or.inr ⟨List.mem_cons_of_mem _ h2.1, h2.2⟩

/-! ### The `pick_top` loop invariant -/

/-- A representative stays correct when the processed prefix grows by an
entry that cannot beat it (invalid, a different fingerprint, or score at most
the stored one). -/
theorem RepOk_snoc {H : String → String} {now : Int} {processed : List Entry}
    {kv : String × ℚ × Entry} {e : Entry} (hkv : RepOk H now processed kv)
    (he : validEntry e = true → entryFp H e = kv.1 → score_item now e ≤ kv.2.1) :
    RepOk H now (processed ++ [e]) kv := by
  obtain ⟨l1, l2, hsplit, hv, hfp, hs, hlt, hle⟩ := hkv
  refine ⟨l1, l2 ++ [e], by rw [hsplit]; simp, hv, hfp, hs, hlt, ?_⟩
  intro x hx hvx hfx
  rcases List.mem_append.mp hx with h1 | h2
  · exact hle x h1 hvx hfx
  · rw [List.mem_singleton] at h2
    subst h2
    exact he hvx hfx

theorem RepOk_groupLe {H : String → String} {now : Int} {processed : List Entry}
    {kv : String × ℚ × Entry} (hkv : RepOk H now processed kv) :
    groupLe H now processed kv.1 kv.2.1 := by
  obtain ⟨l1, l2, hsplit, hv, hfp, hs, hlt, hle⟩ := hkv
  intro x hx hvx hfx
  rw [hsplit] at hx
  rcases List.mem_append.mp hx with h1 | h2
  · exact le_of_lt (hlt x h1 hvx hfx)
  · rcases List.mem_cons.mp h2 with he | h3
    · subst he
      exact hs.symm.le
    · exact hle x h3 hvx hfx

theorem RepOk_groupLt_of_lt {H : String → String} {now : Int}
    {processed : List Entry} {kv : String × ℚ × Entry}
    (hkv : RepOk H now processed kv) {s : ℚ} (hlt : kv.2.1 < s) :
    groupLt H now processed kv.1 s :=
  fun x hx hvx hfx => lt_of_le_of_lt (RepOk_groupLe hkv x hx hvx hfx) hlt

/-- The loop of `pick_top` preserves the invariant. -/
theorem pickLoop_inv (H : String → String) (now : Int) :
    ∀ (rest : List Entry) (best : List (String × ℚ × Entry)) (processed : List Entry),
      Inv H now processed best →
        Inv H now (processed ++ rest) (pickLoop H now best rest) := by
  intro rest
  induction rest with
  | nil =>
    intro best processed hinv
    simpa [pickLoop] using hinv
  | cons e rest ih =>
    intro best processed hinv
    obtain ⟨hrep, hnd, hkeys⟩ := hinv
    rw [show processed ++ e :: rest = (processed ++ [e]) ++ rest by simp]
    by_cases hv : validEntry e = true
    · rcases hlk : lookupVal best (entryFp H e) with _ | sv
      · -- new fingerprint: append a fresh representative
        have hnm : entryFp H e ∉ best.map Prod.fst := lookupVal_eq_none.mp hlk
        rw [show pickLoop H now best (e :: rest)
            = pickLoop H now (setKey best (entryFp H e) (score_item now e, e)) rest by
          simp [pickLoop, hv, hlk]]
        apply ih
        rw [setKey_of_not_mem hnm]
        refine ⟨?_, ?_, ?_⟩
        · intro kv hkv
          rcases List.mem_append.mp hkv with hold | hnew
          · refine RepOk_snoc (hrep kv hold) (fun _ hfe => ?_)
            exact absurd (hfe ▸ List.mem_map.mpr ⟨kv, hold, rfl⟩) hnm
          · rw [List.mem_singleton] at hnew
            subst hnew
            refine ⟨processed, [], by simp, hv, rfl, rfl, ?_, by simp [groupLe]⟩
            intro x hx hvx hfx
            have hfx' : entryFp H x = entryFp H e := hfx
            exact absurd (hfx' ▸ hkeys x hx hvx) hnm
        · rw [List.map_append]
          simp only [List.map_cons, List.map_nil]
          rw [List.nodup_append]
          refine ⟨hnd, List.nodup_singleton _, ?_⟩
          intro a ha hb
          rw [List.mem_singleton] at hb
          exact hnm (hb ▸ ha)
        · intro x hx hvx
          rw [List.map_append]
          rcases List.mem_append.mp hx with h1 | h2
          · exact List.mem_append_left _ (hkeys x h1 hvx)
          · rw [List.mem_singleton] at h2
            subst h2
            simp
      · -- fingerprint already present
        have hmem : (entryFp H e, sv) ∈ best := lookupVal_mem hlk
        have hkeymem : entryFp H e ∈ best.map Prod.fst :=
          List.mem_map.mpr ⟨(entryFp H e, sv), hmem, rfl⟩
        by_cases hs : sv.1 < score_item now e
        · -- strictly better score: replace the stored representative
          rw [show pickLoop H now best (e :: rest)
              = pickLoop H now (setKey best (entryFp H e) (score_item now e, e)) rest by
            simp [pickLoop, hv, hlk, hs]]
          apply ih
          refine ⟨?_, ?_, ?_⟩
          · intro kv hkv
            rcases setKey_mem_cases hnd hkv with hnew | ⟨hold, hne⟩
            · subst hnew
              refine ⟨processed, [], by simp, hv, rfl, rfl, ?_, by simp [groupLe]⟩
              exact RepOk_groupLt_of_lt (hrep (entryFp H e, sv) hmem) hs
            · refine RepOk_snoc (hrep kv hold) (fun _ hfe => absurd hfe.symm hne)
          · rw [setKey_keys_of_mem hkeymem]
            exact hnd
          · intro x hx hvx
            rw [setKey_keys_of_mem hkeymem]
            rcases List.mem_append.mp hx with h1 | h2
            · exact hkeys x h1 hvx
            · rw [List.mem_singleton] at h2
              subst h2
              exact hkeymem
        · -- not better: the dict is unchanged
          rw [show pickLoop H now best (e :: rest) = pickLoop H now best rest by
            simp [pickLoop, hv, hlk, hs]]
          apply ih
          refine ⟨?_, hnd, ?_⟩
          · intro kv hkv
            refine RepOk_snoc (hrep kv hkv) (fun _ hfe => ?_)
            have h1 : lookupVal best kv.1 = some kv.2 :=
              lookupVal_of_mem hnd (by simpa using hkv)
            have h2 : lookupVal best kv.1 = some sv := hfe ▸ hlk
            have h3 : kv.2 = sv := by
              have := h1.symm.trans h2
              simpa using this
            rw [h3]
            exact not_lt.mp hs
          · intro x hx hvx
            rcases List.mem_append.mp hx with h1 | h2
            · exact hkeys x h1 hvx
            · rw [List.mem_singleton] at h2
              subst h2
              exact hkeymem
    · -- invalid entry: skipped
      rw [show pickLoop H now best (e :: rest) = pickLoop H now best rest by
        simp [pickLoop, hv]]
      apply ih
      refine ⟨?_, hnd, ?_⟩
      · intro kv hkv
        exact RepOk_snoc (hrep kv hkv) (fun hve _ => absurd hve hv)
      · intro x hx hvx
        rcases List.mem_append.mp hx with h1 | h2
        · exact hkeys x h1 hvx
        · rw [List.mem_singleton] at h2
          subst h2
          exact absurd hvx hv

/-- The invariant holds for the finished dict. -/
theorem pickLoop_inv_result (H : String → String) (now : Int) (items : List Entry) :
    Inv H now items (pickLoop H now [] items) := by
  have h := pickLoop_inv H now items [] []
    ⟨by simp, by simp, by simp⟩
  simpa using h

/-- What membership in the deduplicated value list means: the entry is a
valid member of the pool, its strictly earlier valid group mates score
strictly below it and the later ones at most it. -/
theorem mem_repEntries_spec {H : String → String} {now : Int} {items : List Entry}
    {e : Entry} (he : e ∈ repEntries H now items) :
    validEntry e = true ∧ ∃ l1 l2, items = l1 ++ e :: l2 ∧
      groupLt H now l1 (entryFp H e) (score_item now e) ∧
      groupLe H now l2 (entryFp H e) (score_item now e) := by
  obtain ⟨kv, hkv, rfl⟩ := List.mem_map.mp he
  obtain ⟨hrep, _, _⟩ := pickLoop_inv_result H now items
  obtain ⟨l1, l2, hsplit, hv, hfp, hs, hlt, hle⟩ := hrep kv hkv
  refine ⟨hv, l1, l2, hsplit, ?_, ?_⟩
  · rw [hfp, ← hs]
    exact hlt
  · rw [hfp, ← hs]
    exact hle

/-- Distinct representatives have distinct fingerprints. -/
theorem repEntries_fp_inj {H : String → String} {now : Int} {items : List Entry}
    {e1 e2 : Entry} (h1 : e1 ∈ repEntries H now items)
    (h2 : e2 ∈ repEntries H now items) (hfp : entryFp H e1 = entryFp H e2) :
    e1 = e2 := by
  obtain ⟨kv1, hkv1, rfl⟩ := List.mem_map.mp h1
  obtain ⟨kv2, hkv2, rfl⟩ := List.mem_map.mp h2
  obtain ⟨hrep, hnd, _⟩ := pickLoop_inv_result H now items
  obtain ⟨_, _, _, _, hfp1, _, _, _⟩ := hrep kv1 hkv1
  obtain ⟨_, _, _, _, hfp2, _, _, _⟩ := hrep kv2 hkv2
  have hkey : kv1.1 = kv2.1 := by rw [← hfp1, ← hfp2, hfp]
  rw [List.inj_on_of_nodup_map hnd hkv1 hkv2 hkey]

/-- Members of the selection are representatives. -/
theorem mem_pick_top {H : String → String} {now : Int} {items : List Entry}
    {k : Nat} {e : Entry} (he : e ∈ pick_top H now items k) :
    e ∈ repEntries H now items :=
  (mem_sortDesc now _ e).mp (List.mem_of_mem_take he)

/-- The dict keys are exactly the fingerprints of the valid pool entries. -/
theorem mem_keys_iff (H : String → String) (now : Int) (items : List Entry)
    (key : String) :
    key ∈ (pickLoop H now [] items).map Prod.fst ↔
      key ∈ (items.filter validEntry).map (entryFp H) := by
  obtain ⟨hrep, _, hkeys⟩ := pickLoop_inv_result H now items
  constructor
  · intro hk
    obtain ⟨kv, hkv, rfl⟩ := List.mem_map.mp hk
    obtain ⟨l1, l2, hsplit, hv, hfp, _, _, _⟩ := hrep kv hkv
    refine List.mem_map.mpr ⟨kv.2.2, ?_, hfp⟩
    rw [List.mem_filter]
    exact ⟨by rw [hsplit]; simp, hv⟩
  · intro hk
    obtain ⟨x, hx, rfl⟩ := List.mem_map.mp hk
    rw [List.mem_filter] at hx
    exact hkeys x hx.1 hx.2

/-! ### C2: deduplication keeps a best-scoring first representative -/

/-- If `e1` occurs in the left part `l` and `e2` does not occur in `l` at
all, then in any decomposition `l ++ r = l1 ++ e2 :: l2` the entry `e1` falls
into `l1`. -/
theorem mem_left_of_before {l r l1 l2 : List Entry} {e1 e2 : Entry} :
    l ++ r = l1 ++ e2 :: l2 → e2 ∉ l → e1 ∈ l → e1 ∈ l1 := by
  induction l generalizing l1 with
  | nil => intro _ _ he1; simp at he1
  | cons a l ih =>
    intro heq hne2 he1
    cases l1 with
    | nil =>
      rw [List.nil_append, List.cons_append, List.cons.injEq] at heq
      exact absurd (heq.1 ▸ List.mem_cons_self a l) hne2
    | cons b l1' =>
      rw [List.cons_append, List.cons_append, List.cons.injEq] at heq
      rcases List.mem_cons.mp he1 with rfl | he1'
      · exact heq.1 ▸ List.mem_cons_self _ _
      · exact List.mem_cons_of_mem _
          (ih heq.2 (fun h => hne2 (List.mem_cons_of_mem _ h)) he1')

/-- C2 (amended): of two valid pool entries with identical normalized title
and canonical link, `select_top` retains at most one — never both — and never
the lower-scoring one; when the scores are equal, a duplicate occurring only
after the first occurrence of its twin is never kept. -/
theorem c2_dedup_keeps_best (H : String → String) (now : Int) (items : List Entry)
    (k : Nat) (e1 e2 : Entry) (_h1 : e1 ∈ items) (h2 : e2 ∈ items)
    (hv1 : validEntry e1 = true) (hv2 : validEntry e2 = true)
    (ht : normalize_text e1.title = normalize_text e2.title)
    (hl : canonical_url e1.link = canonical_url e2.link) (hne : e1 ≠ e2) :
    ¬(e1 ∈ pick_top H now items k ∧ e2 ∈ pick_top H now items k) ∧
      (score_item now e1 < score_item now e2 → e1 ∉ pick_top H now items k) ∧
      (score_item now e1 = score_item now e2 →
        ∀ l r, items = l ++ r → e1 ∈ l → e2 ∉ l →
          e2 ∉ pick_top H now items k) := by
  have hfp : entryFp H e1 = entryFp H e2 := by
    unfold entryFp hash_item
    rw [ht, hl]
  refine ⟨?_, ?_, ?_⟩
  · rintro ⟨m1, m2⟩
    exact hne (repEntries_fp_inj (mem_pick_top m1) (mem_pick_top m2) hfp)
  · intro hs hm1
    obtain ⟨_, l1, l2, hsplit, hlt, hle⟩ := mem_repEntries_spec (mem_pick_top hm1)
    rw [hsplit] at h2
    rcases List.mem_append.mp h2 with hA | hB
    · exact absurd (hlt e2 hA hv2 hfp.symm) (lt_asymm hs)
    · rcases List.mem_cons.mp hB with heq | hC
      · exact hne heq.symm
      · exact absurd (hle e2 hC hv2 hfp.symm) (not_le.mpr hs)
  · intro hs l r hsplit0 hin hnot hm2
    obtain ⟨_, l1, l2, hsplit, hlt, _⟩ := mem_repEntries_spec (mem_pick_top hm2)
    have he1l1 : e1 ∈ l1 := mem_left_of_before (hsplit0.symm.trans hsplit) hnot hin
    have hcon := hlt e1 he1l1 hv1 hfp
    rw [hs] at hcon
    exact absurd hcon (lt_irrefl _)

section
attribute [local semireducible] Rat.add Rat.mul Rat.inv Rat.sub

/-- C2 (counterexample): a pool containing a duplicated story with two
different scores, in which `select_top(pool, 3)` retains NEITHER of the two
duplicates — four distinct fresher entries crowd the story out — so the
claimed "retains exactly one of them" fails. -/
theorem c2_counterexample :
    (dupLow ∈ crowdPool ∧ dupHigh ∈ crowdPool ∧
      normalize_text dupLow.title = normalize_text dupHigh.title ∧
      canonical_url dupLow.link = canonical_url dupHigh.link ∧
      score_item 0 dupLow < score_item 0 dupHigh) ∧
      dupLow ∉ pick_top id 0 crowdPool 3 ∧
      dupHigh ∉ pick_top id 0 crowdPool 3 := by
  refine ⟨⟨?_, ?_, ?_, ?_, ?_⟩, ?_, ?_⟩ <;> decide

/-- C2 (witness): the amended theorem applied to a concrete two-entry pool;
the lower-scoring duplicate is not retained. -/
theorem c2_witness : dupLow ∉ pick_top id 0 [dupLow, dupHigh] 3 :=
  (c2_dedup_keeps_best id 0 [dupLow, dupHigh] 3 dupLow dupHigh (by decide)
    (by decide) (by decide) (by decide) (by decide) (by decide) (by decide)).2.1
    (by decide)

end

/-! ### C3: the selection length -/

/-- C3: the selection has length `min k (number of distinct fingerprints
among valid pool entries)`; in particular the empty pool gives the empty
selection and a small pool gives a short selection. -/
theorem c3_length_pick_top (H : String → String) (now : Int) (items : List Entry)
    (k : Nat) :
    (pick_top H now items k).length = min k (distinct_valid_count H items) := by
  unfold pick_top
  rw [List.length_take]
  congr 1
  rw [(sortDesc_perm now _).length_eq]
  unfold repEntries distinct_valid_count
  rw [List.length_map]
  obtain ⟨_, hnd, _⟩ := pickLoop_inv_result H now items
  have hset : ((pickLoop H now [] items).map Prod.fst).toFinset =
      ((items.filter validEntry).map (entryFp H)).toFinset := by
    ext a
    simp only [List.mem_toFinset]
    exact mem_keys_iff H now items a
  calc (pickLoop H now [] items).length
      = ((pickLoop H now [] items).map Prod.fst).length :=
        (List.length_map _ _).symm
    _ = ((pickLoop H now [] items).map Prod.fst).toFinset.card :=
        (List.toFinset_card_of_nodup hnd).symm
    _ = ((items.filter validEntry).map (entryFp H)).toFinset.card := by rw [hset]
    _ = ((items.filter validEntry).map (entryFp H)).dedup.length :=
        List.card_toFinset _

/-! ### C4: validity of selected entries -/

/-- C4 (amended): entries with an empty normalized title or empty canonical
link never appear in the output of `pick_top`; the padding step, however,
filters by fingerprint only and can append such entries (see the
counterexample). -/
theorem c4_pick_top_valid (H : String → String) (now : Int) (items : List Entry)
    (k : Nat) : ∀ e ∈ pick_top H now items k, validEntry e = true :=
  fun _ he => (mem_repEntries_spec (mem_pick_top he)).1

section
attribute [local semireducible] Rat.add Rat.mul Rat.inv Rat.sub

/-- C4 (counterexample): an entry with an empty normalized title is appended
to the final gaming selection by the padding step. -/
theorem c4_counterexample :
    badEntry ∈ top_gaming id 0 [] [badEntry] ∧ validEntry badEntry = false := by
  constructor <;> decide

/-- C4 (witness): the amended theorem applied to a concrete pool. -/
theorem c4_witness : validEntry helloEntry = true :=
  c4_pick_top_valid id 0 [helloEntry] 3 helloEntry (by decide)

end

/-! ### C6/C7: padding -/

/-- The padding loop only appends, and appends only pool entries. -/
theorem padAux_append (H : String → String) :
    ∀ (pool : List Entry) (seen : List String) (items : List Entry),
      ∃ extra, padAux H seen items pool = items ++ extra ∧ ∀ e ∈ extra, e ∈ pool := by
  intro pool
  induction pool with
  | nil =>
    intro seen items
    exact ⟨[], by simp [padAux], by simp⟩
  | cons e rest ih =>
    intro seen items
    by_cases h3 : 3 ≤ items.length
    · exact ⟨[], by simp [padAux, h3], by simp⟩
    · by_cases hseen : entryFp H e ∈ seen
      · obtain ⟨extra, heq, hsub⟩ := ih seen items
        exact ⟨extra, by simp [padAux, h3, hseen, heq],
          fun x hx => List.mem_cons_of_mem _ (hsub x hx)⟩
      · obtain ⟨extra, heq, hsub⟩ := ih (entryFp H e :: seen) (items ++ [e])
        refine ⟨e :: extra, ?_, ?_⟩
        · rw [show padAux H seen items (e :: rest)
              = padAux H (entryFp H e :: seen) (items ++ [e]) rest by
            simp [padAux, h3, hseen]]
          rw [heq, List.append_assoc]
          rfl
        · intro x hx
          rcases List.mem_cons.mp hx with rfl | hx'
          · exact List.mem_cons_self _ _
          · exact List.mem_cons_of_mem _ (hsub x hx')

/-- The padding loop keeps fingerprints distinct (when `seen` covers the
accumulated items) and never grows the selection past `max 3` of its initial
length. -/
theorem padAux_nodup (H : String → String) :
    ∀ (pool : List Entry) (seen : List String) (items : List Entry),
      (items.map (entryFp H)).Nodup → (∀ x ∈ items, entryFp H x ∈ seen) →
        ((padAux H seen items pool).map (entryFp H)).Nodup ∧
          (padAux H seen items pool).length ≤ max 3 items.length := by
  intro pool
  induction pool with
  | nil =>
    intro seen items hnd _
    exact ⟨by simpa [padAux] using hnd, by simp [padAux, le_max_right]⟩
  | cons e rest ih =>
    intro seen items hnd hcov
    by_cases h3 : 3 ≤ items.length
    · refine ⟨by simpa [padAux, h3] using hnd, by simp [padAux, h3, le_max_right]⟩
    · by_cases hseen : entryFp H e ∈ seen
      · rw [show padAux H seen items (e :: rest) = padAux H seen items rest by
          simp [padAux, h3, hseen]]
        exact ih seen items hnd hcov
      · have hfresh : entryFp H e ∉ seen := hseen
        rw [show padAux H seen items (e :: rest)
            = padAux H (entryFp H e :: seen) (items ++ [e]) rest by
          simp [padAux, h3, hseen]]
        have hnd' : ((items ++ [e]).map (entryFp H)).Nodup := by
          rw [List.map_append, List.nodup_append]
          refine ⟨hnd, by simp, ?_⟩
          intro a ha hb
          simp only [List.map_cons, List.map_nil, List.mem_singleton] at hb
          subst hb
          obtain ⟨x, hx, hfx⟩ := List.mem_map.mp ha
          exact hfresh (hfx ▸ hcov x hx)
        have hcov' : ∀ x ∈ items ++ [e], entryFp H x ∈ entryFp H e :: seen := by
          intro x hx
          rcases List.mem_append.mp hx with h1 | h2
          · exact List.mem_cons_of_mem _ (hcov x h1)
          · rw [List.mem_singleton] at h2
            subst h2
            exact List.mem_cons_self _ _
        obtain ⟨hA, hB⟩ := ih (entryFp H e :: seen) (items ++ [e]) hnd' hcov'
        refine ⟨hA, le_trans hB ?_⟩
        have hlen : (items ++ [e]).length = items.length + 1 := by simp
        rw [hlen]
        have h4 : items.length + 1 ≤ 3 := by omega
        rw [max_eq_left h4]
        exact le_max_left _ _

/-- C6: padding a selection whose fingerprints are pairwise distinct walks
the fallback pool in order, only appends pool entries, never introduces a
duplicate fingerprint, and never pushes the selection past the target count
of 3 (already full selections are returned unchanged). -/
theorem c6_pad_nodup (H : String → String) (items pool : List Entry)
    (hnd : (items.map (entryFp H)).Nodup) :
    ((pad_to_three H items pool).map (entryFp H)).Nodup ∧
      (∃ extra, pad_to_three H items pool = items ++ extra ∧ ∀ e ∈ extra, e ∈ pool) ∧
      (pad_to_three H items pool).length ≤ max 3 items.length := by
  unfold pad_to_three
  obtain ⟨h1, h2⟩ := padAux_nodup H pool (items.map (entryFp H)) items hnd
    (fun x hx => List.mem_map_of_mem _ hx)
  exact ⟨h1, padAux_append H pool _ items, h2⟩

/-- C6 (witness): the theorem applied to a concrete fingerprint-distinct
selection and pool. -/
theorem c6_witness :
    ((pad_to_three id [padA] [padB]).map (entryFp id)).Nodup ∧
      (∃ extra, pad_to_three id [padA] [padB] = [padA] ++ extra ∧
        ∀ e ∈ extra, e ∈ [padB]) ∧
      (pad_to_three id [padA] [padB]).length ≤ max 3 [padA].length :=
  c6_pad_nodup id [padA] [padB] (by decide)

/-- C7: the final general selection is the unpadded `pick_top` output plus
extra entries drawn from a pool that excludes the (padded) gaming selection,
so no entry of the gaming selection is ever added to the general selection by
padding. -/
theorem c7_general_pad_excludes_gaming (H : String → String) (now : Int)
    (mobile_all general_all : List Entry) :
    ∃ extra, top_general H now mobile_all general_all
        = pick_top H now (general_pool general_all) 3 ++ extra ∧
      ∀ e ∈ extra, e ∉ top_gaming H now mobile_all general_all := by
  unfold top_general
  by_cases h3 : (pick_top H now (general_pool general_all) 3).length < 3
  · rw [if_pos h3]
    unfold pad_to_three
    obtain ⟨extra, heq, hsub⟩ := padAux_append H
      ((general_pool general_all).filter fun e =>
        !(decide (e ∈ pick_top H now (general_pool general_all) 3)) &&
        !(decide (e ∈ top_gaming H now mobile_all general_all)))
      ((pick_top H now (general_pool general_all) 3).map (entryFp H))
      (pick_top H now (general_pool general_all) 3)
    refine ⟨extra, heq, ?_⟩
    intro e hee
    have hmem := hsub e hee
    rw [List.mem_filter] at hmem
    have hcond := hmem.2
    simp only [Bool.and_eq_true, Bool.not_eq_true', decide_eq_false_iff_not] at hcond
    exact hcond.2
  · rw [if_neg h3]
    exact ⟨[], by simp, by simp⟩

/-- C7 (witness): the theorem instantiated at a concrete input. -/
theorem c7_witness :
    ∃ extra, top_general id 0 [] [helloEntry]
        = pick_top id 0 (general_pool [helloEntry]) 3 ++ extra ∧
      ∀ e ∈ extra, e ∉ top_gaming id 0 [] [helloEntry] :=
  c7_general_pad_excludes_gaming id 0 [] [helloEntry]

/-! ### C5: routing -/

theorem length_filter_add_length_filter_not {α : Type} (p : α → Bool) (l : List α) :
    (l.filter p).length + (l.filter fun a => !(p a)).length = l.length := by
  induction l with
  | nil => rfl
  | cons a l ih =>
    cases h : p a <;> simp [List.filter_cons, h] <;> omega

/-- `general_pool` is exactly the non-gaming part of the input: membership in
the value-equality based `siphoned` list coincides with the keyword test. -/
theorem general_pool_eq_filter (general_all : List Entry) :
    general_pool general_all = general_all.filter fun e => !(isGaming e) := by
  unfold general_pool
  apply List.filter_congr
  intro x hx
  by_cases hg : isGaming x = true
  · have hmem : x ∈ siphoned general_all := List.mem_filter.mpr ⟨hx, hg⟩
    simp [hmem, hg]
  · have hmem : x ∉ siphoned general_all := fun hm => hg (List.mem_filter.mp hm).2
    simp [hmem, (by simpa using hg : isGaming x = false)]

/-- C5: routing partitions the general pool exhaustively and disjointly:
keyword-matching entries all go to the siphoned gaming subset, all others to
the remaining general pool, both in input order (sublists), and the lengths
add up. -/
theorem c5_route_partition (general_all : List Entry) :
    (∀ e ∈ general_all, isGaming e = true → e ∈ siphoned general_all) ∧
      (∀ e ∈ general_all, isGaming e = false → e ∈ general_pool general_all) ∧
      (∀ e ∈ siphoned general_all, isGaming e = true ∧ e ∈ general_all) ∧
      (∀ e ∈ general_pool general_all, isGaming e = false ∧ e ∈ general_all) ∧
      (∀ e ∈ siphoned general_all, e ∉ general_pool general_all) ∧
      List.Sublist (siphoned general_all) general_all ∧
      List.Sublist (general_pool general_all) general_all ∧
      (siphoned general_all).length + (general_pool general_all).length
        = general_all.length := by
  refine ⟨?_, ?_, ?_, ?_, ?_, ?_, ?_, ?_⟩
  · intro e he hg
    exact List.mem_filter.mpr ⟨he, hg⟩
  · intro e he hg
    rw [general_pool_eq_filter]
    exact List.mem_filter.mpr ⟨he, by simp [hg]⟩
  · intro e he
    have h := List.mem_filter.mp he
    exact ⟨h.2, h.1⟩
  · intro e he
    rw [general_pool_eq_filter] at he
    have h := List.mem_filter.mp he
    exact ⟨by simpa using h.2, h.1⟩
  · intro e he hgen
    rw [general_pool_eq_filter] at hgen
    have h1 := (List.mem_filter.mp he).2
    have h2 := (List.mem_filter.mp hgen).2
    rw [h1] at h2
    simp at h2
  · exact List.filter_sublist _
  · rw [general_pool_eq_filter]
    exact List.filter_sublist _
  · rw [general_pool_eq_filter]
    unfold siphoned
    exact length_filter_add_length_filter_not isGaming general_all

/-- C5 (witness): a concrete entry containing the keyword `android` is routed
into the gaming subset. -/
theorem c5_witness : androidEntry ∈ siphoned [androidEntry] :=
  (c5_route_partition [androidEntry]).1 androidEntry (by simp) (by decide)

/-! ### C8/C9: the scoring formula and its shape -/

theorem string_ne_empty_iff_length_pos (s : String) : s ≠ "" ↔ 0 < s.length := by
  cases s with
  | mk data =>
    cases data with
    | nil => simp [String.length]
    | cons c cs =>
      constructor
      · intro _
        simp [String.length]
      · intro _ h
        exact absurd (congrArg String.data h) (by simp)

/-- The code's title test `len(title) > 0` agrees with the spec's "title
non-empty". -/
theorem title_bonus_eq (e : Entry) :
    (if (0 < e.title.length : Bool) = true then (1 : ℚ) else 0) = title_bonus_spec e := by
  unfold title_bonus_spec
  by_cases hT : e.title = ""
  · rw [hT]
    simp
  · have hpos : 0 < e.title.length := (string_ne_empty_iff_length_pos _).mp hT
    simp [hT, hpos]

/-- C8: the score is exactly
`10 / recency_hours + (1 if title non-empty else 0) + min(1.5, len/400)`
with `recency_hours = max(1, hours between published and now)`; an absent (or
unparseable) published time yields the sentinel `9999`, whose recency term
`10/9999` is positive but below `1/100` — effectively zero. -/
theorem c8_score_formula (now : Int) (e : Entry) :
    score_item now e
        = 10 / recency_hours_spec now e + title_bonus_spec e + summary_term_spec e ∧
      score_item now { e with published := none }
        = 10 / 9999 + title_bonus_spec e + summary_term_spec e ∧
      (0 : ℚ) < 10 / 9999 ∧ (10 : ℚ) / 9999 < 1 / 100 := by
  refine ⟨?_, ?_, by norm_num, by norm_num⟩
  · unfold score_item recency_hours_spec summary_term_spec
    rw [← title_bonus_eq]
  · unfold score_item summary_term_spec
    rw [← title_bonus_eq]

/-- C9: with `now` and all other fields fixed, the score is non-increasing in
entry age (older published time never scores higher), non-decreasing in
summary length with the summary contribution capped at `1.5`, and any
non-empty title adds exactly `1.0` over the empty title. -/
theorem c9_score_monotone (now : Int) (e : Entry) :
    (∀ p1 p2 : Int, p1 ≤ p2 →
      score_item now { e with published := some p1 }
        ≤ score_item now { e with published := some p2 }) ∧
      (∀ s1 s2 : String, s1.length ≤ s2.length →
        score_item now { e with summary := s1 }
          ≤ score_item now { e with summary := s2 }) ∧
      summary_term_spec e ≤ 3 / 2 ∧
      (∀ t : String, t ≠ "" →
        score_item now { e with title := t }
          = score_item now { e with title := "" } + 1) := by
  refine ⟨?_, ?_, min_le_left _ _, ?_⟩
  · intro p1 p2 hp
    unfold score_item
    simp only
    have hpos : (0 : ℚ) < max 1 (((now : ℚ) - (p2 : ℚ)) / 3600) :=
      lt_of_lt_of_le one_pos (le_max_left _ _)
    have hmono : max 1 (((now : ℚ) - (p2 : ℚ)) / 3600)
        ≤ max 1 (((now : ℚ) - (p1 : ℚ)) / 3600) := by
      refine max_le_max le_rfl ?_
      have hc : ((p1 : ℚ)) ≤ ((p2 : ℚ)) := by exact_mod_cast hp
      have hs : ((now : ℚ) - (p2 : ℚ)) ≤ ((now : ℚ) - (p1 : ℚ)) :=
        sub_le_sub_left hc _
      exact div_le_div_of_nonneg_right hs (by norm_num)
    have hdiv : (10 : ℚ) / max 1 (((now : ℚ) - (p1 : ℚ)) / 3600)
        ≤ 10 / max 1 (((now : ℚ) - (p2 : ℚ)) / 3600) :=
      div_le_div_of_nonneg_left (by norm_num) hpos hmono
    exact add_le_add_right (add_le_add_right hdiv _) _
  · intro s1 s2 hlen
    unfold score_item
    simp only
    refine add_le_add_left (min_le_min le_rfl ?_) _
    have hc : ((s1.length : ℚ)) ≤ ((s2.length : ℚ)) := by exact_mod_cast hlen
    exact div_le_div_of_nonneg_right hc (by norm_num)
  · intro t ht
    unfold score_item
    simp only
    have hpos : (decide (0 < t.length)) = true :=
      decide_eq_true ((string_ne_empty_iff_length_pos _).mp ht)
    have hzero : (decide (0 < ("" : String).length)) = false := by
      simp [String.length]
    rw [hpos, hzero, if_pos rfl, if_neg (by simp)]
    ring

section
attribute [local semireducible] Rat.add Rat.mul Rat.inv Rat.sub

/-- C9 (witness): the three monotonicity parts applied at concrete inputs. -/
theorem c9_witness :
    score_item 0 { nineEntry with published := some (-7200) }
        ≤ score_item 0 { nineEntry with published := some (-3600) } ∧
      score_item 0 { nineEntry with summary := "a" }
        ≤ score_item 0 { nineEntry with summary := "ab" } ∧
      score_item 0 { nineEntry with title := "t" }
        = score_item 0 { nineEntry with title := "" } + 1 :=
  ⟨(c9_score_monotone 0 nineEntry).1 (-7200) (-3600) (by decide),
    (c9_score_monotone 0 nineEntry).2.1 "a" "ab" (by decide),
    (c9_score_monotone 0 nineEntry).2.2.2 "t" (by decide)⟩

/-- C10: the gaming padding draws from the full general pool without
excluding the general selection, so an input exists — a single valid,
non-gaming entry — for which that entry ends up in BOTH final selections. -/
theorem c10_overlap_possible :
    helloEntry ∈ top_gaming id 0 [] [helloEntry] ∧
      helloEntry ∈ top_general id 0 [] [helloEntry] := by
  constructor <;> decide

end

end Bot
